import Mathlib

/-!
Verification of the leo-lambda gateway against its specification.

The development shallowly embeds the argument-and-policy pipeline of
`main.go` / `pkg/utils/utils.go` and the bounded output buffer of
`pkg/executor/executor.go` as pure Lean functions over `List String` and
`List Nat` (bytes), and proves or refutes the specified properties.

Go strings are modelled as Lean `String` (a wrapper around `List Char`);
the Go standard library functions used by the sources (`strings.ToLower`,
`strings.TrimSpace`, `strings.HasPrefix`, `strings.Contains`,
`strings.EqualFold`, `strings.Index` for the single character `/`) are
modelled in the `LeoLambda.strings` namespace. Case folding is modelled
as basic-latin lowercasing.
-/

namespace LeoLambda

namespace strings

/-- Model of Go `strings.ToLower`: lowercase every character. -/
def ToLower (s : String) : String :=
  ⟨s.data.map Char.toLower⟩

/-- Model of Go `strings.TrimSpace`: drop leading and trailing whitespace. -/
def TrimSpace (s : String) : String :=
  ⟨((s.data.dropWhile Char.isWhitespace).reverse.dropWhile Char.isWhitespace).reverse⟩

/-- Model of Go `strings.HasPrefix`. -/
def HasPrefix (s pre : String) : Bool :=
  pre.data.isPrefixOf s.data

/-- Model of Go `strings.Contains`: substring occurrence. -/
def Contains (s sub : String) : Bool :=
  decide (sub.data <:+: s.data)

/-- Model of Go `strings.EqualFold` (case-insensitive equality). -/
def EqualFold (a b : String) : Bool :=
  ToLower a == ToLower b

theorem charToLower_toLower (c : Char) : c.toLower.toLower = c.toLower := by
  unfold Char.toLower
  by_cases h : c.toNat ≥ 65 ∧ c.toNat ≤ 90
  · rw [if_pos h]
    have hv : ((Char.ofNat (c.toNat + 32)).toNat) = c.toNat + 32 := by
      rw [Char.ofNat, dif_pos (Or.inl (by omega))]
      simp [Char.ofNatAux, Char.toNat, UInt32.toNat]
    rw [if_neg]
    rw [hv]
    omega
  · rw [if_neg h, if_neg h]

theorem ToLower_ToLower (s : String) : ToLower (ToLower s) = ToLower s := by
  unfold ToLower
  apply String.ext
  simp only [List.map_map]
  exact List.map_congr_left fun c _ => charToLower_toLower c

@[simp] theorem ToLower_empty : ToLower "" = "" := rfl

end strings

/-!
### Argument pipeline (from `main.go` / `pkg/utils/utils.go`)

Both the subcommand classifier and the injection-point search in the Go
sources run the same left-to-right scan: while a flag-skipping mode is
on, a literal `--` token turns the mode off and tokens beginning with
`-` are skipped; every other token is tested. `scanSkipIdx` embeds that
loop, returning the index of the first accepted token.
-/

/-- The shared scanning loop of `firstSubcommand` and
`injectFlagValueAfterSubcommand`, returning the index of the first
token that is not skipped and satisfies `p`. -/
def scanSkipIdx (p : String → Bool) : List String → Bool → Option Nat
  | [], _ => none
  | tok :: rest, skipFlags =>
    if skipFlags && tok == "--" then (scanSkipIdx p rest false).map (· + 1)
    else if skipFlags && strings.HasPrefix tok "-" then
      (scanSkipIdx p rest skipFlags).map (· + 1)
    else if p tok then some 0
    else (scanSkipIdx p rest skipFlags).map (· + 1)

/-- Embedding of `firstSubcommand` (`main.go`) / `utils.FirstSubcommand`:
returns the lowercased first non-blank, non-skipped token; an empty
token list is an error; only-flags input yields the empty subcommand. -/
def firstSubcommand (args : List String) : Except String String :=
  if args.isEmpty then .error "no arguments provided"
  else
    match scanSkipIdx (fun tok => !(strings.TrimSpace tok == "")) args true with
    | some i => .ok (strings.ToLower (args.getD i ""))
    | none => .ok ""

/-- Embedding of `extractExecuteContract` (`main.go`) /
`utils.ExtractExecuteContract`. The Go code locates the first `/` with
`strings.Index` (a byte index); since `/` is a one-byte character, the
byte index is positive iff some character precedes the slash and is
less than `len(tok)-1` iff some character follows it, so the search is
modelled by `List.findIdx?` on the characters. -/
def extractExecuteContract : List String → String × String
  | [] => ("", "")
  | tok :: rest =>
    if (strings.HasPrefix tok "-" || strings.TrimSpace tok == "" : Bool) then
      extractExecuteContract rest
    else if strings.Contains tok "://" then
      extractExecuteContract rest
    else
      match tok.data.findIdx? (· == '/') with
      | some i =>
        if 0 < i ∧ i < tok.length - 1 then
          (strings.ToLower (strings.TrimSpace ⟨tok.data.take i⟩),
           strings.ToLower (strings.TrimSpace ⟨tok.data.drop (i + 1)⟩))
        else extractExecuteContract rest
      | none => extractExecuteContract rest

/-- Embedding of `hasAnyFlag` (`main.go`) / `utils.HasAnyFlag`: some
token equals one of the names or starts with a name followed by `=`. -/
def hasAnyFlag (args : List String) (names : List String) : Bool :=
  args.any fun a => names.any fun n => a == n || strings.HasPrefix a (n ++ "=")

/-- Embedding of `injectFlagValueAfterSubcommand` (`main.go`) /
`utils.InjectFlagValueAfterSubcommand`: splice `[flag, value]` right
after the first non-skipped token equal (case-insensitively) to
`subcmd`, or prepend when there is none. -/
def injectFlagValueAfterSubcommand (args : List String) (subcmd flag value : String) :
    List String :=
  match scanSkipIdx (fun tok => strings.EqualFold tok subcmd) args true with
  | some idx => args.take (idx + 1) ++ flag :: value :: args.drop (idx + 1)
  | none => flag :: value :: args

/-- Embedding of `firstNonEmpty` (`main.go`) / `utils.FirstNonEmpty`. -/
def firstNonEmpty (vals : List String) : String :=
  match vals.find? (fun v => !(strings.TrimSpace v == "")) with
  | some v => v
  | none => ""

/-- The guarded injection as performed at the call sites in `handler`
(`main.go`): a no-op when the flag is already present, otherwise a
splice at the injection point. -/
def injectFlagIfAbsent (args : List String) (subcmd flag value : String) : List String :=
  if hasAnyFlag args [flag] then args
  else injectFlagValueAfterSubcommand args subcmd flag value

/-!
### Handler policy logic (from `handler` in `main.go`)
-/

/-- The configuration fields of `EnvConfig` (`main.go`) consumed by the
policy logic modelled here; runner-only fields (binary path, workdir,
output cap, dry-run) are omitted. -/
structure EnvConfig where
  AllowedCommands : List String
  AllowedContracts : List String
  LeoPrivateKey : String
  WalletPrivateKey : String
  RPCURL : String
deriving DecidableEq

/-- The `allowed` set built by `handler` (`main.go` lines 191-201): the
default `{execute}` when no commands are configured, otherwise the
trimmed, lowercased, non-blank entries. Go stores them as map keys;
the model keeps a list and uses it only through membership. -/
def allowedCommandsSet (allowedCommands : List String) : List String :=
  if allowedCommands.isEmpty then ["execute"]
  else (allowedCommands.map fun v => strings.ToLower (strings.TrimSpace v)).filter
    fun v => !(v == "")

/-- The subcommand allow-list test of `handler` (`main.go` lines
206-210): deny iff the subcommand is non-empty, the derived set is
non-empty and the subcommand is not a member. -/
def subcommandDenied (allowedCommands : List String) (subcmd : String) : Bool :=
  let allowed := allowedCommandsSet allowedCommands
  !(subcmd == "") && (!allowed.isEmpty && !(allowed.contains subcmd))

/-- One iteration of the `for _, v := range cfgEnv.AllowedContracts`
loop of `handler` (`main.go` lines 216-226): extend the normalized
contract set with the entry when non-blank, and inject the endpoint
flag when an RPC URL is configured and the flag is still absent. The
state is (contract set, current argument list). -/
def contractsStep (rpcURL subcmd : String) (st : List String × List String)
    (v : String) : List String × List String :=
  let vn := strings.ToLower (strings.TrimSpace v)
  let cset := if vn == "" then st.1 else st.1 ++ [vn]
  let args :=
    if (!(strings.TrimSpace rpcURL == "") && !hasAnyFlag st.2 ["--endpoint"] : Bool) then
      injectFlagValueAfterSubcommand st.2 subcmd "--endpoint" rpcURL
    else st.2
  (cset, args)

/-- The private-key injection at the end of the execute branch
(`main.go` lines 237-242). -/
def privKeyStep (cfg : EnvConfig) (args : List String) : List String :=
  if !hasAnyFlag args ["--private-key", "-k"] then
    let pk := firstNonEmpty [cfg.LeoPrivateKey, cfg.WalletPrivateKey]
    if !(pk == "") then injectFlagValueAfterSubcommand args "execute" "--private-key" pk
    else args
  else args

/-- Result of the execute branch of `handler`: 403 (contract denied),
400 (missing contract/method argument), or proceed to spawn the
process with the final argument list. -/
inductive ExecOutcome where
  | denied403
  | bad400
  | proceed (args : List String)
deriving DecidableEq

/-- The state after the whole `for _, v := range cfgEnv.AllowedContracts`
loop of `handler`: the derived contract set and the (possibly
endpoint-injected) argument list. -/
def contractsLoopState (cfg : EnvConfig) (args : List String) :
    List String × List String :=
  cfg.AllowedContracts.foldl (contractsStep cfg.RPCURL "execute") ([], args)

/-- The `subcmd == "execute"` branch of `handler` (`main.go` lines
213-243): run the contracts loop (set building and endpoint
injection), enforce the contract allow-list when the derived set is
non-empty, then inject the private key. -/
def executeBranch (cfg : EnvConfig) (args : List String) : ExecOutcome :=
  if !(contractsLoopState cfg args).1.isEmpty then
    if !((extractExecuteContract (contractsLoopState cfg args).2).1 == "") then
      if !((contractsLoopState cfg args).1.contains
          (strings.ToLower (extractExecuteContract (contractsLoopState cfg args).2).1)) then
        .denied403
      else .proceed (privKeyStep cfg (contractsLoopState cfg args).2)
    else .bad400
  else .proceed (privKeyStep cfg (contractsLoopState cfg args).2)

/-!
### Bounded tail-preserving output buffer (from `pkg/executor/executor.go`)

Bytes are modelled as `Nat`; the buffer limit keeps the Go `int` type
(`Int` here) so that the `Limit <= 0` branch of `Write` is preserved.
-/

/-- Embedding of `limitedBuffer` (`executor.go` lines 115-119). -/
structure limitedBuffer where
  buf : List Nat
  Limit : Int
  Truncated : Bool
deriving DecidableEq

/-- Embedding of `newLimitedBuffer` (`executor.go` lines 121-123). -/
def newLimitedBuffer (limit : Int) : limitedBuffer :=
  { buf := [], Limit := limit, Truncated := false }

/-- Embedding of `limitedBuffer.Write` (`executor.go` lines 125-150).
In the oversized-write branch Go assigns `Truncated` twice (once under
`len(b.buf) > 0`, once unconditionally); the net effect is the single
unconditional assignment kept here. -/
def write (b : limitedBuffer) (p : List Nat) : limitedBuffer :=
  if p.length = 0 then b
  else if b.Limit ≤ 0 then { b with buf := b.buf ++ p }
  else if (p.length : Int) ≥ b.Limit then
    { b with buf := p.drop (p.length - b.Limit.toNat), Truncated := true }
  else
    let free : Int := b.Limit - (b.buf.length : Int)
    if (p.length : Int) ≤ free then { b with buf := b.buf ++ p }
    else
      let dropN : Nat := min ((p.length : Int) - free).toNat b.buf.length
      { b with buf := b.buf.drop dropN ++ p, Truncated := true }

/-- A sequence of writes against the buffer. -/
def writeAll (b : limitedBuffer) (ps : List (List Nat)) : limitedBuffer :=
  ps.foldl write b

/-- The suffix of `l` of length at most `n` (the most recent `n` bytes). -/
def tailTake (n : Nat) (l : List Nat) : List Nat :=
  l.drop (l.length - n)

/-!
### Process runner pieces that are not among the sources

Two pieces of the repository are referenced by the sources but their
definitions are not in the source tree: the timeout-capable variant of
`executor.Run` (its `Config.Timeout` field and `Result.TimedOut` flag
are exercised by `executor_test.go` and read by `main.go`, while the
`executor.go` present has neither), and `utils.FilterLines` (called by
`executor.Run` but absent from `utils.go`). Both are modelled from the
specification.
-/

/-- Modelled from the spec: how one invocation of the timeout-capable
`executor.Run` ends — either the process completes (normally or not)
with a real exit status, or the deadline derived from the configured
timeout or the caller cancellation expires first. -/
inductive RunEvent where
  | completed (exitStatus : Int)
  | deadlineExpired
deriving DecidableEq

/-- Modelled from the spec: the outcome fields of the timeout-capable
runner relevant to deadline handling — exit code, timed-out flag,
whether the forceful terminate signal was sent to the whole process
group, and whether the runner waited for the process to fully exit. -/
structure TimedOutcome where
  exitCode : Int
  timedOut : Bool
  groupKilled : Bool
  processExited : Bool
deriving DecidableEq

/-- Modelled from the spec: the completion race of the timeout-capable
`executor.Run` (spec section 4.2, items 2 and 5), whose implementation
is not among the sources. On deadline expiry the runner signals the
whole process group, blocks until the process has exited, and reports
exit code 124 with the timed-out flag set; on completion it maps the
real exit status through. -/
def runDeadlineModel : RunEvent → TimedOutcome
  | .completed c => { exitCode := c, timedOut := false, groupKilled := false,
                      processExited := true }
  | .deadlineExpired => { exitCode := 124, timedOut := true, groupKilled := true,
                          processExited := true }

/-- Embedding of `stdOutExcludedStrings` (`executor.go` line 31). -/
def stdOutExcludedStrings : List String := ["Installation"]

/-- Embedding of `stdErrExcludedStrings` (`executor.go` line 32). -/
def stdErrExcludedStrings : List String := ["Failed to store", "powers-of-beta"]

/-- Modelled from the spec: `utils.FilterLines`, called by
`executor.Run` but absent from the sources; it removes every line of
`s` that contains one of the excluded substrings. -/
def FilterLines (s : String) (excluded : List String) : String :=
  "\n".intercalate ((s.splitOn "\n").filter fun line =>
    !(excluded.any fun e => strings.Contains line e))

/-- The captured streams of an execution result, as assembled by
`executor.Run` (`executor.go` lines 62-66) before any launch-error
text is appended to stderr. -/
structure CapturedResult where
  Stdout : String
  Stderr : String
  Truncated : Bool
deriving DecidableEq

/-- Embedding of the result assembly of `executor.Run` (`executor.go`
lines 62-66): the captured buffer contents pass through `FilterLines`
with the corresponding excluded-string lists. -/
def assembleResult (stdoutBuf stderrBuf : String) (stdoutTrunc stderrTrunc : Bool) :
    CapturedResult :=
  { Stdout := FilterLines stdoutBuf stdOutExcludedStrings
    Stderr := FilterLines stderrBuf stdErrExcludedStrings
    Truncated := stdoutTrunc || stderrTrunc }

/-!
### Specification-side formulations

The claims describe the scanning loops positionally: flag-skipping
mode is on at position `i` iff no earlier token is the literal `--`,
and a token is skipped iff it begins with `-` while the mode is on.
These definitions render the wording of the claims; the theorems relate them
to the embedded loops.
-/

/-- Flag-skipping mode is on at position `i` iff no token before `i`
is the literal `--` (the mode is turned off permanently by the first
such token). -/
def inSkipAt (args : List String) (i : Nat) : Bool :=
  (args.take i).all fun t => !(t == "--")

/-- A position survives the scan iff it is not a flag-shaped token
encountered while flag-skipping mode is on. -/
def notSkippedAt (args : List String) (i : Nat) : Bool :=
  !(inSkipAt args i && strings.HasPrefix (args.getD i "") "-")

/-- Positional rendering of the scanning loops: the first position
that survives the scan and satisfies `p`. -/
def specScanIdx (p : String → Bool) (args : List String) : Option Nat :=
  (List.range args.length).find? fun i => notSkippedAt args i && p (args.getD i "")

/-- Subcommand classification exactly as the claim words it: the first
NON-EMPTY token that survives the scan, case-folded; no qualifying
token gives the empty subcommand; an empty list is an error. -/
def claimFirstSubcommand (args : List String) : Except String String :=
  if args.isEmpty then .error "no arguments provided"
  else
    match specScanIdx (fun tok => !(tok == "")) args with
    | some i => .ok (strings.ToLower (args.getD i ""))
    | none => .ok ""

/-- Subcommand classification as the amended claim words it: as
`claimFirstSubcommand`, but the returned token must be non-blank
(non-empty after trimming whitespace) rather than merely non-empty. -/
def specFirstSubcommand (args : List String) : Except String String :=
  if args.isEmpty then .error "no arguments provided"
  else
    match specScanIdx (fun tok => !(strings.TrimSpace tok == "")) args with
    | some i => .ok (strings.ToLower (args.getD i ""))
    | none => .ok ""

/-- The first slash of a token splits it with at least one character
on each side. -/
def slashSplitOK (tok : String) : Bool :=
  match tok.data.findIdx? (· == '/') with
  | some i => decide (0 < i ∧ i < tok.length - 1)
  | none => false

/-- Token eligibility for target-reference extraction as the claim
words it: does not start with `-`, non-empty, does not contain `://`,
and its first `/` has non-empty substrings on both sides. -/
def eligibleContractToken (tok : String) : Bool :=
  !(strings.HasPrefix tok "-") && !(tok == "") && !(strings.Contains tok "://")
    && slashSplitOK tok

/-- Splitting an eligible token at its first slash, both parts
case-folded, exactly as the claim words it (no trimming). -/
def claimSplitToken (tok : String) : String × String :=
  match tok.data.findIdx? (· == '/') with
  | some i => (strings.ToLower ⟨tok.data.take i⟩, strings.ToLower ⟨tok.data.drop (i + 1)⟩)
  | none => ("", "")

/-- Splitting at the first slash with both parts whitespace-trimmed
and then case-folded, as the amended claim words it. -/
def specSplitToken (tok : String) : String × String :=
  match tok.data.findIdx? (· == '/') with
  | some i => (strings.ToLower (strings.TrimSpace ⟨tok.data.take i⟩),
               strings.ToLower (strings.TrimSpace ⟨tok.data.drop (i + 1)⟩))
  | none => ("", "")

/-- Target-reference extraction exactly as the claim words it. -/
def claimExtractTarget (args : List String) : String × String :=
  match args.find? eligibleContractToken with
  | some tok => claimSplitToken tok
  | none => ("", "")

/-- Target-reference extraction as the amended claim words it: the
parts of the split are whitespace-trimmed before case folding. -/
def specExtractTarget (args : List String) : String × String :=
  match args.find? eligibleContractToken with
  | some tok => specSplitToken tok
  | none => ("", "")

/-!
### The scanning loops coincide with their positional rendering
-/

theorem inSkipAt_zero (args : List String) : inSkipAt args 0 = true := rfl

theorem inSkipAt_cons_succ (t : String) (rest : List String) (i : Nat) :
    inSkipAt (t :: rest) (i + 1) = ((!(t == "--")) && inSkipAt rest i) := by
  simp [inSkipAt, List.take_succ_cons]

theorem range_find?_succ (p : Nat → Bool) (n : Nat) :
    (List.range (n + 1)).find? p =
      if p 0 then some 0 else ((List.range n).find? fun i => p (i + 1)).map (· + 1) := by
  rw [List.range_succ_eq_map, List.find?_cons]
  cases h : p 0 with
  | true => simp [h]
  | false =>
    have h1 : (p ∘ Nat.succ) = fun i => p (i + 1) := funext fun i => rfl
    have h2 : (Nat.succ : Nat → Nat) = fun x => x + 1 := funext fun x => rfl
    simp [h, List.find?_map, h1, h2]

theorem scanSkipIdx_false (p : String → Bool) :
    ∀ l : List String,
      scanSkipIdx p l false = (List.range l.length).find? fun i => p (l.getD i "") := by
  intro l
  induction l with
  | nil => rfl
  | cons t rest ih =>
    have hL : scanSkipIdx p (t :: rest) false
        = if p t then some 0 else (scanSkipIdx p rest false).map (· + 1) := by
      simp [scanSkipIdx]
    rw [hL, List.length_cons, range_find?_succ]
    simp only [List.getD_cons_zero, List.getD_cons_succ]
    cases hpt : p t with
    | true => simp
    | false => simp [ih]

theorem scanSkipIdx_true (p : String → Bool) :
    ∀ l : List String, scanSkipIdx p l true = specScanIdx p l := by
  intro l
  induction l with
  | nil => rfl
  | cons t rest ih =>
    by_cases hdd : t = "--"
    · subst hdd
      have hL : scanSkipIdx p ("--" :: rest) true
          = (scanSkipIdx p rest false).map (· + 1) := by
        simp [scanSkipIdx]
      have hpre : strings.HasPrefix "--" "-" = true := by decide
      rw [hL, scanSkipIdx_false]
      simp [specScanIdx, range_find?_succ, notSkippedAt, inSkipAt_cons_succ,
        inSkipAt_zero, hpre]
    · have hne : (t == "--") = false := by simp [hdd]
      cases hp : strings.HasPrefix t "-" with
      | true =>
        have hL : scanSkipIdx p (t :: rest) true
            = (scanSkipIdx p rest true).map (· + 1) := by
          simp [scanSkipIdx, hne, hp]
        rw [hL, ih]
        simp [specScanIdx, range_find?_succ, notSkippedAt, inSkipAt_cons_succ,
          inSkipAt_zero, hne, hp]
      | false =>
        have hL : scanSkipIdx p (t :: rest) true
            = if p t then some 0 else (scanSkipIdx p rest true).map (· + 1) := by
          simp [scanSkipIdx, hne, hp]
        rw [hL]
        cases hpt : p t with
        | true =>
          simp [hpt, specScanIdx, range_find?_succ, notSkippedAt, inSkipAt_zero, hp]
        | false =>
          rw [ih]
          simp [hpt, specScanIdx, range_find?_succ, notSkippedAt,
            inSkipAt_cons_succ, inSkipAt_zero, hne, hp]

theorem specScanIdx_lt {p : String → Bool} {args : List String} {i : Nat}
    (h : specScanIdx p args = some i) : i < args.length := by
  have hm := List.mem_of_find?_eq_some h
  exact List.mem_range.mp hm

/-!
### C3 — subcommand classification
-/

/-- C3 counterexample: on the one-token list `[" "]` the claim, as
stated, requires the classifier to return the case-folded first
non-empty token, hence `" "`; the code skips whitespace-only tokens
(`strings.TrimSpace(tok) != ""`) and returns the empty subcommand, so
the claim fails at this input. -/
theorem claim_C3_counterexample :
    firstSubcommand [" "] = .ok "" ∧ claimFirstSubcommand [" "] = .ok " " ∧
      firstSubcommand [" "] ≠ claimFirstSubcommand [" "] := by
  refine ⟨rfl, rfl, fun h => ?_⟩
  rw [show firstSubcommand [" "] = Except.ok "" from rfl,
    show claimFirstSubcommand [" "] = Except.ok " " from rfl] at h
  injection h with h2
  exact absurd h2 (by decide)

/-- C3 (amended): classification of a token list: an empty list is a
`MalformedInput` error; otherwise the scan skips `-`-prefixed tokens
while flag-skipping mode is on, turns the mode off permanently at the
first literal `--`, and returns the case-folded first NON-BLANK
(non-empty after trimming whitespace, rather than merely non-empty)
token that survives the scan; if no token qualifies the empty
subcommand is returned without error. -/
theorem claim_C3_subcommand_classification (args : List String) :
    firstSubcommand args = specFirstSubcommand args := by
  unfold firstSubcommand specFirstSubcommand
  rw [scanSkipIdx_true]

/-!
### C8 — flag injection position and order preservation
-/

/-- C8: flag injection splices `[flag, value]` immediately after the
first non-skipped token that equals the subcommand case-insensitively
(positionally rendered by `specScanIdx`), or prepends the pair at
index 0 when no such token exists; in either case the result is the
original list split at one point with the pair inserted, so every
original token keeps its relative order. -/
theorem claim_C8_injection_position (args : List String) (subcmd flag value : String) :
    (injectFlagValueAfterSubcommand args subcmd flag value =
      match specScanIdx (fun tok => strings.EqualFold tok subcmd) args with
      | some i => args.take (i + 1) ++ flag :: value :: args.drop (i + 1)
      | none => flag :: value :: args) ∧
    ∃ n, n ≤ args.length ∧
      injectFlagValueAfterSubcommand args subcmd flag value
        = args.take n ++ flag :: value :: args.drop n := by
  constructor
  · unfold injectFlagValueAfterSubcommand
    rw [scanSkipIdx_true]
  · unfold injectFlagValueAfterSubcommand
    rw [scanSkipIdx_true]
    cases h : specScanIdx (fun tok => strings.EqualFold tok subcmd) args with
    | some i =>
      exact ⟨i + 1, specScanIdx_lt h, rfl⟩
    | none =>
      exact ⟨0, Nat.zero_le _, by simp⟩

/-!
### C7 — idempotence of guarded flag injection
-/

theorem mem_injectFlag (args : List String) (subcmd flag value : String) :
    flag ∈ injectFlagValueAfterSubcommand args subcmd flag value := by
  unfold injectFlagValueAfterSubcommand
  cases h : scanSkipIdx (fun tok => strings.EqualFold tok subcmd) args true with
  | some i => simp
  | none => simp

theorem hasAnyFlag_of_mem {flag : String} {l : List String} (h : flag ∈ l) :
    hasAnyFlag l [flag] = true := by
  unfold hasAnyFlag
  rw [List.any_eq_true]
  exact ⟨flag, h, by simp⟩

/-- C7: the guarded injection (no-op when the flag is present as a
token or as a `flag=` prefix, otherwise a splice at the injection
point) is idempotent: applying it twice with identical arguments gives
the same list as applying it once. -/
theorem claim_C7_injection_idempotent (args : List String) (subcmd flag value : String) :
    injectFlagIfAbsent (injectFlagIfAbsent args subcmd flag value) subcmd flag value
      = injectFlagIfAbsent args subcmd flag value := by
  unfold injectFlagIfAbsent
  cases h : hasAnyFlag args [flag] with
  | true => simp [h]
  | false =>
    simp [h, hasAnyFlag_of_mem (mem_injectFlag args subcmd flag value)]

/-!
### C5 — target-reference extraction
-/

theorem trimSpace_all_whitespace {s : String} (h : strings.TrimSpace s = "") :
    ∀ c ∈ s.data, c.isWhitespace = true := by
  intro c hc
  have hd : ((s.data.dropWhile Char.isWhitespace).reverse.dropWhile
      Char.isWhitespace).reverse = [] := by
    have := congrArg String.data h
    simpa [strings.TrimSpace] using this
  rw [List.reverse_eq_nil_iff, List.dropWhile_eq_nil_iff] at hd
  have hall : ∀ x ∈ s.data.dropWhile Char.isWhitespace, x.isWhitespace = true :=
    fun x hx => hd x (List.mem_reverse.mpr hx)
  have hsplit : c ∈ s.data.takeWhile Char.isWhitespace ++
      s.data.dropWhile Char.isWhitespace := by
    rw [List.takeWhile_append_dropWhile Char.isWhitespace s.data]
    exact hc
  rcases List.mem_append.mp hsplit with h1 | h2
  · exact List.mem_takeWhile_imp h1
  · exact hall _ h2

theorem findIdx_slash_none_of_blank {s : String} (h : strings.TrimSpace s = "") :
    s.data.findIdx? (· == '/') = none := by
  rw [List.findIdx?_eq_none_iff]
  intro x hx
  have hw := trimSpace_all_whitespace h x hx
  by_cases hx2 : x = '/'
  · subst hx2
    exact absurd hw (by decide)
  · simp [hx2]

/-- C5 counterexample: on the token `"a /b"` the claim, as stated,
requires the reference `("a ", "b")` (both sides of the first slash
case-folded, no trimming); the code trims both parts with
`strings.TrimSpace` first and returns `("a", "b")`, so the claim fails
at this input. -/
theorem claim_C5_counterexample :
    extractExecuteContract ["a /b"] = ("a", "b") ∧
      claimExtractTarget ["a /b"] = ("a ", "b") ∧
      extractExecuteContract ["a /b"] ≠ claimExtractTarget ["a /b"] := by
  refine ⟨rfl, rfl, fun h => ?_⟩
  rw [show extractExecuteContract ["a /b"] = ("a", "b") from rfl,
    show claimExtractTarget ["a /b"] = ("a ", "b") from rfl] at h
  have h2 : ("a" : String) = "a " := congrArg Prod.fst h
  exact absurd h2 (by decide)

/-- C5 (amended): target-reference extraction returns the pair obtained
by splitting, at its first `/`, the first token that does not start
with `-`, is non-empty, does not contain `://`, and whose first `/`
has non-empty substrings on both sides — with both parts
whitespace-trimmed and then case-folded (the claim omitted the
trimming); if no token qualifies it returns the empty reference. -/
theorem claim_C5_target_extraction (args : List String) :
    extractExecuteContract args = specExtractTarget args := by
  induction args with
  | nil => rfl
  | cons tok rest ih =>
    have hspec : specExtractTarget (tok :: rest) =
        if eligibleContractToken tok then specSplitToken tok
        else specExtractTarget rest := by
      unfold specExtractTarget
      rw [List.find?_cons]
      cases he : eligibleContractToken tok with
      | true => simp
      | false => simp [specExtractTarget]
    rw [hspec]
    cases h1 : (strings.HasPrefix tok "-" || (strings.TrimSpace tok == "")) with
    | true =>
      have hcode : extractExecuteContract (tok :: rest) = extractExecuteContract rest := by
        simp only [extractExecuteContract, h1, if_true]
      have hel : eligibleContractToken tok = false := by
        rcases Bool.or_eq_true_iff.mp h1 with ha | hb
        · unfold eligibleContractToken
          simp [ha]
        · have htr : strings.TrimSpace tok = "" := beq_iff_eq.mp hb
          have hf := findIdx_slash_none_of_blank htr
          have hso : slashSplitOK tok = false := by
            unfold slashSplitOK
            rw [hf]
          unfold eligibleContractToken
          simp [hso]
      rw [hcode, hel]
      simp [ih]
    | false =>
      have h1x := Bool.or_eq_false_iff.mp h1
      have ha : strings.HasPrefix tok "-" = false := h1x.1
      have hb : (strings.TrimSpace tok == "") = false := h1x.2
      have htne : (tok == "") = false := by
        by_cases ht : tok = ""
        · subst ht
          exact absurd hb (by decide)
        · simp [ht]
      cases h2 : strings.Contains tok "://" with
      | true =>
        have hcode : extractExecuteContract (tok :: rest) = extractExecuteContract rest := by
          simp only [extractExecuteContract, h1, h2]
          simp
        have hel : eligibleContractToken tok = false := by
          unfold eligibleContractToken
          simp [h2]
        rw [hcode, hel]
        simp [ih]
      | false =>
        cases h3 : tok.data.findIdx? (· == '/') with
        | none =>
          have hcode : extractExecuteContract (tok :: rest) = extractExecuteContract rest := by
            simp only [extractExecuteContract, h1, h2, h3]
            simp
          have hel : eligibleContractToken tok = false := by
            have hso : slashSplitOK tok = false := by
              unfold slashSplitOK
              rw [h3]
            unfold eligibleContractToken
            simp [hso]
          rw [hcode, hel]
          simp [ih]
        | some i =>
          by_cases h4 : (0 < i ∧ i < tok.length - 1)
          · have hcode : extractExecuteContract (tok :: rest)
                = (strings.ToLower (strings.TrimSpace ⟨tok.data.take i⟩),
                   strings.ToLower (strings.TrimSpace ⟨tok.data.drop (i + 1)⟩)) := by
              simp only [extractExecuteContract, h1, h2, h3]
              simp [h4]
            have hel : eligibleContractToken tok = true := by
              have hso : slashSplitOK tok = true := by
                unfold slashSplitOK
                rw [h3]
                simp [h4]
              unfold eligibleContractToken
              simp [ha, htne, h2, hso]
            have hsp : specSplitToken tok =
                (strings.ToLower (strings.TrimSpace ⟨tok.data.take i⟩),
                 strings.ToLower (strings.TrimSpace ⟨tok.data.drop (i + 1)⟩)) := by
              unfold specSplitToken
              rw [h3]
            rw [hcode, hel]
            simp [hsp]
          · have hcode : extractExecuteContract (tok :: rest)
                = extractExecuteContract rest := by
              simp only [extractExecuteContract, h1, h2, h3]
              simp [h4]
            have hel : eligibleContractToken tok = false := by
              have hso : slashSplitOK tok = false := by
                unfold slashSplitOK
                rw [h3]
                simp [h4]
              unfold eligibleContractToken
              simp [hso]
            rw [hcode, hel]
            simp [ih]

/-!
### C4 — subcommand allow-list enforcement
-/

theorem firstSubcommand_ok_toLower {args : List String} {sub : String}
    (h : firstSubcommand args = .ok sub) : strings.ToLower sub = sub := by
  unfold firstSubcommand at h
  by_cases he : args.isEmpty
  · rw [if_pos he] at h
    simp at h
  · rw [if_neg he] at h
    cases hs : scanSkipIdx (fun tok => !(strings.TrimSpace tok == "")) args true with
    | some i =>
      rw [hs] at h
      injection h with h2
      rw [← h2]
      exact strings.ToLower_ToLower _
    | none =>
      rw [hs] at h
      injection h with h2
      rw [← h2]
      rfl

theorem allowedCommandsSet_lowered (cmds : List String) :
    ∀ v ∈ allowedCommandsSet cmds, strings.ToLower v = v := by
  intro v hv
  unfold allowedCommandsSet at hv
  by_cases hc : cmds.isEmpty
  · rw [if_pos hc] at hv
    have : v = "execute" := by simpa using hv
    subst this
    decide
  · rw [if_neg hc] at hv
    rcases List.mem_filter.mp hv with ⟨hm, _⟩
    rcases List.mem_map.mp hm with ⟨a, _, ha⟩
    rw [← ha]
    exact strings.ToLower_ToLower _

theorem contains_iff_exists_equalFold {l : List String}
    (hl : ∀ v ∈ l, strings.ToLower v = v) {s : String}
    (hs : strings.ToLower s = s) :
    l.contains s = true ↔ ∃ v ∈ l, strings.EqualFold v s = true := by
  constructor
  · intro h
    have hmem : s ∈ l := List.elem_iff.mp h
    exact ⟨s, hmem, by simp [strings.EqualFold]⟩
  · rintro ⟨v, hv, he⟩
    have h2 : strings.ToLower v = strings.ToLower s := by
      simpa [strings.EqualFold] using he
    have hveq : v = s := by rw [← hl v hv, h2, hs]
    subst hveq
    exact List.elem_iff.mpr hv

/-- C4: with `sub` the classified subcommand of the request, the
allow-list check denies (`PolicyDenied`) exactly when the derived
allowed set is non-empty, `sub` is non-empty, and `sub` is not a
member of the set under case-insensitive comparison; an empty
subcommand is never denied whatever the allow-list contains. -/
theorem claim_C4_subcommand_allowlist (cmds args : List String) (sub : String)
    (h : firstSubcommand args = .ok sub) :
    (subcommandDenied cmds sub = true ↔
      (allowedCommandsSet cmds ≠ [] ∧ sub ≠ "" ∧
        ¬∃ v ∈ allowedCommandsSet cmds, strings.EqualFold v sub = true)) ∧
    (sub = "" → subcommandDenied cmds sub = false) := by
  have hsub := firstSubcommand_ok_toLower h
  have hlow := allowedCommandsSet_lowered cmds
  have hc := contains_iff_exists_equalFold hlow hsub
  constructor
  · unfold subcommandDenied
    simp only [Bool.and_eq_true, Bool.not_eq_true']
    rw [beq_eq_false_iff_ne]
    constructor
    · rintro ⟨h1, h2, h3⟩
      refine ⟨by simpa using h2, h1, ?_⟩
      intro hex
      rw [hc.mpr hex] at h3
      cases h3
    · rintro ⟨h1, h2, h3⟩
      refine ⟨h2, by simpa using h1, ?_⟩
      cases hcv : (allowedCommandsSet cmds).contains sub with
      | false => rfl
      | true => exact absurd (hc.mp hcv) h3
  · intro h0
    subst h0
    simp [subcommandDenied]

/-- Witness for C4: the allow-list `{execute}` denies the classified
subcommand of `["build", "--flag"]`. -/
theorem claim_C4_subcommand_allowlist_witness :
    (subcommandDenied ["execute"] "build" = true ↔
      (allowedCommandsSet ["execute"] ≠ [] ∧ "build" ≠ "" ∧
        ¬∃ v ∈ allowedCommandsSet ["execute"], strings.EqualFold v "build" = true)) ∧
    ("build" = "" → subcommandDenied ["execute"] "build" = false) :=
  claim_C4_subcommand_allowlist ["execute"] ["build", "--flag"] "build" rfl

/-!
### C6 and C9 — the execute branch of the handler
-/

theorem contractsLoop_fst (rpc sub : String) (raw : List String) :
    ∀ cs as : List String,
      (raw.foldl (contractsStep rpc sub) (cs, as)).1
        = cs ++ (raw.map fun v => strings.ToLower (strings.TrimSpace v)).filter
            (fun v => !(v == "")) := by
  induction raw with
  | nil => intro cs as; simp
  | cons v rest ih =>
    intro cs as
    rw [List.foldl_cons]
    cases hv : (strings.ToLower (strings.TrimSpace v) == "") with
    | true =>
      have hstep : contractsStep rpc sub (cs, as) v
          = (cs, (contractsStep rpc sub (cs, as) v).2) := by
        unfold contractsStep
        simp [hv]
      rw [hstep, ih]
      simp [hv]
    | false =>
      have hstep : contractsStep rpc sub (cs, as) v
          = (cs ++ [strings.ToLower (strings.TrimSpace v)],
             (contractsStep rpc sub (cs, as) v).2) := by
        unfold contractsStep
        simp [hv]
      rw [hstep, ih]
      simp [hv, List.filter_cons]

theorem contractsLoopState_fst_lowered (cfg : EnvConfig) (args : List String) :
    ∀ v ∈ (contractsLoopState cfg args).1, strings.ToLower v = v := by
  intro v hv
  unfold contractsLoopState at hv
  rw [contractsLoop_fst] at hv
  simp only [List.nil_append] at hv
  rcases List.mem_filter.mp hv with ⟨hm, _⟩
  rcases List.mem_map.mp hm with ⟨a, _, ha⟩
  rw [← ha]
  exact strings.ToLower_ToLower _

theorem extract_fst_toLower (args : List String) :
    strings.ToLower (extractExecuteContract args).1 = (extractExecuteContract args).1 := by
  induction args with
  | nil => rfl
  | cons tok rest ih =>
    simp only [extractExecuteContract]
    split
    · exact ih
    · split
      · exact ih
      · split
        · split
          · exact strings.ToLower_ToLower _
          · exact ih
        · exact ih

/-- C6: on an execute request, when the derived contract allow-list is
non-empty, a missing target reference yields `BadRequest` (400) and a
target reference whose namespace is not in the allow-list (under
case-insensitive comparison) yields `PolicyDenied` (403); both
outcomes differ from every `proceed` outcome, so no process is
spawned. -/
theorem claim_C6_contract_allowlist (cfg : EnvConfig) (args : List String)
    (hne : (contractsLoopState cfg args).1 ≠ []) :
    ((extractExecuteContract (contractsLoopState cfg args).2).1 = "" →
      executeBranch cfg args = .bad400 ∧
        ∀ a, executeBranch cfg args ≠ .proceed a) ∧
    (∀ c, (extractExecuteContract (contractsLoopState cfg args).2).1 = c → c ≠ "" →
      (¬∃ v ∈ (contractsLoopState cfg args).1, strings.EqualFold v c = true) →
      executeBranch cfg args = .denied403 ∧
        ∀ a, executeBranch cfg args ≠ .proceed a) := by
  have hie : (contractsLoopState cfg args).1.isEmpty = false :=
    List.isEmpty_eq_false.mpr hne
  constructor
  · intro h0
    have hb : executeBranch cfg args = .bad400 := by
      unfold executeBranch
      rw [h0]
      simp [hie]
    exact ⟨hb, fun a hcontra => by rw [hb] at hcontra; cases hcontra⟩
  · intro c hc hcne hnm
    have hlc : strings.ToLower c = c := by
      rw [← hc]
      exact extract_fst_toLower _
    have hmem : (contractsLoopState cfg args).1.contains (strings.ToLower c) = false := by
      rw [hlc]
      cases hcv : (contractsLoopState cfg args).1.contains c with
      | false => rfl
      | true =>
        exact absurd ((contains_iff_exists_equalFold
          (contractsLoopState_fst_lowered cfg args) hlc).mp hcv) hnm
    have hnotmem : strings.ToLower c ∉ (contractsLoopState cfg args).1 := by
      intro hm
      have hel : (contractsLoopState cfg args).1.contains (strings.ToLower c) = true :=
        List.elem_iff.mpr hm
      rw [hmem] at hel
      cases hel
    have hb : executeBranch cfg args = .denied403 := by
      unfold executeBranch
      rw [hc]
      simp [hie, hcne, hmem, hnotmem]
    exact ⟨hb, fun a hcontra => by rw [hb] at hcontra; cases hcontra⟩

/-- Witness for C6: with allow-list `{ns1}` and no extractable target
in `["execute"]`, the handler answers 400. -/
theorem claim_C6_contract_allowlist_witness :
    executeBranch ⟨[], ["ns1"], "", "", ""⟩ ["execute"] = .bad400 ∧
      ∀ a, executeBranch ⟨[], ["ns1"], "", "", ""⟩ ["execute"] ≠ .proceed a :=
  (claim_C6_contract_allowlist ⟨[], ["ns1"], "", "", ""⟩ ["execute"]
    (by decide)).1 (by decide)

/-- C9: when the configured contract allow-list is empty, the contracts
loop never runs, so the endpoint flag is not injected (the argument
list leaving the loop is the request argument list unchanged) — even
when an RPC URL is configured and `--endpoint` is absent from the
arguments — and the branch proceeds with only the private-key
injection applied. -/
theorem claim_C9_no_endpoint_injection (cfg : EnvConfig) (args : List String)
    (h : cfg.AllowedContracts = []) :
    (contractsLoopState cfg args).2 = args ∧
      executeBranch cfg args = .proceed (privKeyStep cfg args) := by
  have hst : contractsLoopState cfg args = ([], args) := by
    unfold contractsLoopState
    rw [h]
    rfl
  constructor
  · rw [hst]
  · unfold executeBranch
    rw [hst]
    simp

/-- Witness for C9: empty allow-list, configured RPC URL, no endpoint
flag in the arguments — the loop-produced argument list is unchanged. -/
theorem claim_C9_no_endpoint_injection_witness :
    (contractsLoopState ⟨[], [], "", "", "http://rpc.example"⟩
        ["execute", "ns/m"]).2 = ["execute", "ns/m"] ∧
      executeBranch ⟨[], [], "", "", "http://rpc.example"⟩ ["execute", "ns/m"]
        = .proceed (privKeyStep ⟨[], [], "", "", "http://rpc.example"⟩
            ["execute", "ns/m"]) :=
  claim_C9_no_endpoint_injection ⟨[], [], "", "", "http://rpc.example"⟩
    ["execute", "ns/m"] rfl

/-!
### C1 — bounded tail-preserving buffer
-/

theorem tailTake_length (n : Nat) (l : List Nat) :
    (tailTake n l).length = min n l.length := by
  simp only [tailTake, List.length_drop]
  omega

/-- One write step preserves the suffix invariant: starting from the
suffix of `acc`, writing `p` leaves the suffix of `acc ++ p`, and the
truncated flag picks up exactly the oversized-write and overflow
conditions of `limitedBuffer.Write`. -/
theorem write_tailTake (N : Nat) (hN : 0 < N) (acc p : List Nat) (tr : Bool) :
    write ⟨tailTake N acc, (N : Int), tr⟩ p
      = ⟨tailTake N (acc ++ p), (N : Int),
         tr || (!p.isEmpty &&
           (decide (N ≤ p.length) || decide (N < acc.length + p.length)))⟩ := by
  have hslen : (tailTake N acc).length = min N acc.length := tailTake_length N acc
  by_cases hp0 : p.length = 0
  · have hpnil : p = [] := List.length_eq_zero.mp hp0
    subst hpnil
    simp [write, tailTake]
  · have hpe : p.isEmpty = false := by
      cases p with
      | nil => simp at hp0
      | cons a l => rfl
    have hL0 : ¬((⟨tailTake N acc, (N : Int), tr⟩ : limitedBuffer).Limit ≤ 0) := by
      show ¬((N : Int) ≤ 0)
      omega
    by_cases h3 : ((p.length : Int) ≥ (N : Int))
    · have hNle : N ≤ p.length := by exact_mod_cast h3
      have hbuf : p.drop (p.length - ((N : Int)).toNat) = tailTake N (acc ++ p) := by
        rw [Int.toNat_natCast, tailTake, List.length_append]
        have hK : acc.length + p.length - N = acc.length + (p.length - N) := by omega
        rw [hK, List.drop_append]
      have hstep : write ⟨tailTake N acc, (N : Int), tr⟩ p
          = ⟨p.drop (p.length - ((N : Int)).toNat), (N : Int), true⟩ := by
        unfold write
        rw [if_neg hp0, if_neg hL0, if_pos h3]
      rw [hstep, hbuf]
      have htr : (!p.isEmpty &&
          (decide (N ≤ p.length) || decide (N < acc.length + p.length))) = true := by
        simp [hpe, hNle]
      rw [htr, Bool.or_true]
    · have hplt : p.length < N := by omega
      by_cases h4 : ((p.length : Int) ≤ (N : Int) - ((tailTake N acc).length : Int))
      · have haccN : acc.length + p.length ≤ N := by
          rw [hslen] at h4
          by_cases hacc : acc.length ≤ N
          · have : (min N acc.length) = acc.length := by omega
            rw [this] at h4
            omega
          · have : (min N acc.length) = N := by omega
            rw [this] at h4
            omega
        have haccle : acc.length ≤ N := by omega
        have hsacc : tailTake N acc = acc := by
          unfold tailTake
          have : acc.length - N = 0 := by omega
          rw [this, List.drop_zero]
        have hstep : write ⟨tailTake N acc, (N : Int), tr⟩ p
            = ⟨tailTake N acc ++ p, (N : Int), tr⟩ := by
          unfold write
          rw [if_neg hp0, if_neg hL0, if_neg h3, if_pos h4]
        rw [hstep, hsacc]
        have hres : tailTake N (acc ++ p) = acc ++ p := by
          unfold tailTake
          rw [List.length_append]
          have : acc.length + p.length - N = 0 := by omega
          rw [this, List.drop_zero]
        rw [hres]
        have htr : (!p.isEmpty &&
            (decide (N ≤ p.length) || decide (N < acc.length + p.length))) = false := by
          simp [hpe]
          omega
        rw [htr, Bool.or_false]
      · have hover : N < acc.length + p.length := by
          rw [hslen] at h4
          by_cases hacc : acc.length ≤ N
          · have : (min N acc.length) = acc.length := by omega
            rw [this] at h4
            omega
          · omega
        have hstep : write ⟨tailTake N acc, (N : Int), tr⟩ p
            = ⟨(tailTake N acc).drop
                  (min ((p.length : Int) - ((N : Int) - ((tailTake N acc).length : Int))).toNat
                    (tailTake N acc).length) ++ p,
               (N : Int), true⟩ := by
          unfold write
          rw [if_neg hp0, if_neg hL0, if_neg h3, if_neg h4]
        rw [hstep]
        have hdropN : (min ((p.length : Int) - ((N : Int) - ((tailTake N acc).length : Int))).toNat
            (tailTake N acc).length) = p.length + min N acc.length - N := by
          rw [hslen]
          have h1 : ((p.length : Int) - ((N : Int) - ((min N acc.length : Nat) : Int))).toNat
              = p.length + min N acc.length - N := by
            omega
          rw [h1]
          omega
        rw [hdropN]
        have hbuf : (tailTake N acc).drop (p.length + min N acc.length - N) ++ p
            = tailTake N (acc ++ p) := by
          unfold tailTake
          rw [List.drop_drop, List.length_append]
          have hK : acc.length + p.length - N ≤ acc.length := by omega
          rw [List.drop_append_of_le_length hK]
          have : acc.length - N + (p.length + min N acc.length - N)
              = acc.length + p.length - N := by omega
          rw [this]
        rw [hbuf]
        have htr : (!p.isEmpty &&
            (decide (N ≤ p.length) || decide (N < acc.length + p.length))) = true := by
          simp [hpe]
          omega
        rw [htr, Bool.or_true]

/-- The truncation events along a sequence of writes: the head write
is oversized or overflows the space left by `acc`, or a later write
does so with `acc` extended accordingly. -/
def stepTr (N : Nat) : List (List Nat) → List Nat → Bool
  | [], _ => false
  | p :: rest, acc =>
    (!p.isEmpty && (decide (N ≤ p.length) || decide (N < acc.length + p.length)))
      || stepTr N rest (acc ++ p)

theorem writeAll_inv (N : Nat) (hN : 0 < N) :
    ∀ (ps : List (List Nat)) (acc : List Nat) (tr : Bool),
      writeAll ⟨tailTake N acc, (N : Int), tr⟩ ps
        = ⟨tailTake N (acc ++ ps.flatten), (N : Int), tr || stepTr N ps acc⟩ := by
  intro ps
  induction ps with
  | nil =>
    intro acc tr
    simp [writeAll, stepTr]
  | cons p rest ih =>
    intro acc tr
    have h1 : writeAll ⟨tailTake N acc, (N : Int), tr⟩ (p :: rest)
        = writeAll (write ⟨tailTake N acc, (N : Int), tr⟩ p) rest := rfl
    rw [h1, write_tailTake N hN, ih (acc ++ p)]
    have hj : (acc ++ p) ++ rest.flatten = acc ++ (p :: rest).flatten := by
      rw [List.flatten_cons, List.append_assoc]
    rw [hj]
    have hs : stepTr N (p :: rest) acc
        = ((!p.isEmpty && (decide (N ≤ p.length) || decide (N < acc.length + p.length)))
            || stepTr N rest (acc ++ p)) := rfl
    rw [hs, ← Bool.or_assoc]

theorem stepTr_iff (N : Nat) (hN : 0 < N) :
    ∀ (ps : List (List Nat)) (acc : List Nat), acc.length ≤ N →
      (stepTr N ps acc = true ↔
        ((∃ p ∈ ps, p.length = N) ∨ N < acc.length + ps.flatten.length)) := by
  intro ps
  induction ps with
  | nil =>
    intro acc hacc
    simp [stepTr]
    omega
  | cons p rest ih =>
    intro acc hacc
    by_cases hpe : p.isEmpty = true
    · have hpnil : p = [] := List.isEmpty_iff.mp hpe
      subst hpnil
      have hstep : stepTr N ([] :: rest) acc = stepTr N rest acc := by
        simp [stepTr]
      rw [hstep, ih acc hacc]
      constructor
      · intro h
        rcases h with ⟨v, hv, hlen⟩ | h
        · exact Or.inl ⟨v, List.mem_cons_of_mem _ hv, hlen⟩
        · refine Or.inr ?_
          simpa [List.flatten_cons] using h
      · intro h
        rcases h with ⟨v, hv, hlen⟩ | h
        · rcases List.mem_cons.mp hv with hv1 | hv2
          · subst hv1
            simp at hlen
            omega
          · exact Or.inl ⟨v, hv2, hlen⟩
        · refine Or.inr ?_
          simpa [List.flatten_cons] using h
    · have hpeb : p.isEmpty = false := by
        cases hb : p.isEmpty with
        | true => exact absurd hb hpe
        | false => rfl
      by_cases hbig : (N ≤ p.length ∨ N < acc.length + p.length)
      · have hA : (!p.isEmpty &&
            (decide (N ≤ p.length) || decide (N < acc.length + p.length))) = true := by
          simp [hpeb]
          omega
        have hl : stepTr N (p :: rest) acc = true := by
          simp [stepTr, hA]
        rw [hl]
        simp only [true_iff]
        rcases hbig with hb1 | hb2
        · by_cases heq : p.length = N
          · exact Or.inl ⟨p, List.mem_cons_self p rest, heq⟩
          · refine Or.inr ?_
            rw [List.flatten_cons, List.length_append]
            omega
        · refine Or.inr ?_
          rw [List.flatten_cons, List.length_append]
          omega
      · have hA : (!p.isEmpty &&
            (decide (N ≤ p.length) || decide (N < acc.length + p.length))) = false := by
          simp [hpeb]
          omega
        have hl : stepTr N (p :: rest) acc = stepTr N rest (acc ++ p) := by
          simp [stepTr, hA]
        have hacc2 : (acc ++ p).length ≤ N := by
          rw [List.length_append]
          omega
        rw [hl, ih (acc ++ p) hacc2]
        rw [List.length_append, List.flatten_cons, List.length_append]
        constructor
        · intro h
          rcases h with ⟨v, hv, hlen⟩ | h
          · exact Or.inl ⟨v, List.mem_cons_of_mem p hv, hlen⟩
          · refine Or.inr ?_
            omega
        · intro h
          rcases h with ⟨v, hv, hlen⟩ | h
          · rcases List.mem_cons.mp hv with hv1 | hv2
            · subst hv1
              omega
            · exact Or.inl ⟨v, hv2, hlen⟩
          · refine Or.inr ?_
            omega

/-- C1 counterexample: with cap `N = 3`, the single write `[1, 2, 3]`
leaves the buffer holding the entire written sequence — no byte was
dropped — yet the `Truncated` flag is set, because the oversized-write
branch of `limitedBuffer.Write` (taken whenever `len(p) >= limit`)
sets the flag unconditionally, even when `len(p) = limit` and the
buffer was empty. The "exactly when some byte has been dropped" part
of the claim therefore fails. -/
theorem claim_C1_counterexample :
    (writeAll (newLimitedBuffer 3) [[1, 2, 3]]).buf = [1, 2, 3] ∧
      (writeAll (newLimitedBuffer 3) [[1, 2, 3]]).Truncated = true := by
  constructor
  · rfl
  · rfl

/-- C1 (amended): for every positive cap `N` and sequence of writes,
the final buffer contents are exactly the length-at-most-`N` suffix of
the concatenation of all written bytes (older bytes are dropped from
the front, never the back), and the `Truncated` flag is set iff some
byte was dropped (the total exceeds `N`) OR some single write had
length exactly `N` (which the oversized-write branch flags although
nothing is dropped). -/
theorem claim_C1_tail_truncation (N : Nat) (hN : 0 < N) (ps : List (List Nat)) :
    (writeAll (newLimitedBuffer (N : Int)) ps).buf = tailTake N ps.flatten ∧
    (writeAll (newLimitedBuffer (N : Int)) ps).buf.length ≤ N ∧
    ((writeAll (newLimitedBuffer (N : Int)) ps).Truncated = true ↔
      (N < ps.flatten.length ∨ ∃ p ∈ ps, p.length = N)) := by
  have h0 : newLimitedBuffer (N : Int) = ⟨tailTake N [], (N : Int), false⟩ := by
    simp [newLimitedBuffer, tailTake]
  rw [h0, writeAll_inv N hN ps [] false]
  refine ⟨rfl, ?_, ?_⟩
  · show (tailTake N ([] ++ ps.flatten)).length ≤ N
    rw [List.nil_append, tailTake_length]
    omega
  · show (false || stepTr N ps []) = true ↔ _
    rw [Bool.false_or, stepTr_iff N hN ps [] (by simp)]
    simp only [List.length_nil, Nat.zero_add]
    exact Or.comm

/-- Witness for C1 at cap 2 with writes `[1]` then `[2, 3]`: the
buffer keeps the suffix `[2, 3]` and is flagged truncated. -/
theorem claim_C1_tail_truncation_witness :
    (writeAll (newLimitedBuffer ((2 : Nat) : Int)) [[1], [2, 3]]).buf
        = tailTake 2 ([[1], [2, 3]] : List (List Nat)).flatten ∧
    (writeAll (newLimitedBuffer ((2 : Nat) : Int)) [[1], [2, 3]]).buf.length ≤ 2 ∧
    ((writeAll (newLimitedBuffer ((2 : Nat) : Int)) [[1], [2, 3]]).Truncated = true ↔
      (2 < ([[1], [2, 3]] : List (List Nat)).flatten.length ∨
        ∃ p ∈ ([[1], [2, 3]] : List (List Nat)), p.length = 2)) :=
  claim_C1_tail_truncation 2 (by decide) [[1], [2, 3]]

/-!
### C2 — deadline expiry outcome (spec-modelled runner)
-/

/-- C2: for every run of the timeout-capable runner whose deadline
(configured timeout or caller cancellation) expires before the
subprocess completes, the outcome has the timed-out flag set and exit
code 124, after the whole process group has been signalled and the
process has fully exited. Settled against `runDeadlineModel`, the
spec-modelled completion race of the runner variant whose source is
not in the tree. -/
theorem claim_C2_timeout_outcome (e : RunEvent) (h : e = .deadlineExpired) :
    (runDeadlineModel e).timedOut = true ∧ (runDeadlineModel e).exitCode = 124 ∧
      (runDeadlineModel e).groupKilled = true ∧
      (runDeadlineModel e).processExited = true := by
  subst h
  exact ⟨rfl, rfl, rfl, rfl⟩

/-- Witness for C2 at the deadline-expired event. -/
theorem claim_C2_timeout_outcome_witness :
    (runDeadlineModel .deadlineExpired).timedOut = true ∧
      (runDeadlineModel .deadlineExpired).exitCode = 124 ∧
      (runDeadlineModel .deadlineExpired).groupKilled = true ∧
      (runDeadlineModel .deadlineExpired).processExited = true :=
  claim_C2_timeout_outcome .deadlineExpired rfl

/-!
### C10 — output line filtering
-/

/-- C10: the stdout that `executor.Run` reports is the captured stdout
with every line containing `Installation` removed, and the reported
stderr is the captured stderr with every line containing
`Failed to store` or `powers-of-beta` removed (before any launch-error
text is appended); captured output is therefore not returned verbatim.
`FilterLines` is spec-modelled (its body is not in the tree); the
excluded-string lists and the result assembly are embedded from
`executor.go`. -/
theorem claim_C10_line_filtering (stdoutBuf stderrBuf : String)
    (stdoutTrunc stderrTrunc : Bool) :
    (assembleResult stdoutBuf stderrBuf stdoutTrunc stderrTrunc).Stdout
        = "\n".intercalate ((stdoutBuf.splitOn "\n").filter fun line =>
            !(strings.Contains line "Installation")) ∧
    (assembleResult stdoutBuf stderrBuf stdoutTrunc stderrTrunc).Stderr
        = "\n".intercalate ((stderrBuf.splitOn "\n").filter fun line =>
            !(strings.Contains line "Failed to store"
              || strings.Contains line "powers-of-beta")) := by
  constructor
  · show FilterLines stdoutBuf stdOutExcludedStrings = _
    unfold FilterLines stdOutExcludedStrings
    congr 1
    apply List.filter_congr
    intro line _
    simp
  · show FilterLines stderrBuf stdErrExcludedStrings = _
    unfold FilterLines stdErrExcludedStrings
    congr 1
    apply List.filter_congr
    intro line _
    simp

end LeoLambda
